import Mathlib

/-!
# The ordered multimap of `orderedmap.go`

A shallow embedding of the Go package `orderedmap` and a verification of its
specification.

Modelling conventions.

* A Go slice is either the nil slice or an allocated sequence (`Slice`); the
  two are kept apart because `NewOrderedMap` and `GetAll` tell them apart.
  The entries stored in the map are themselves `[]string` values of arbitrary
  length; only their length and their elements are ever inspected, so an entry
  is a `List String`.
* A Go `string` is modelled by a Lean `String`; `len` is the length of its
  UTF-8 encoding in bytes, as in Go.  `strings.Contains` belongs to the Go
  standard library; it is rendered by a leftmost search over the characters,
  which for UTF-8 text finds the same occurrences as the search over bytes.
* Every theorem about an operation that indexes the entries (`Remove`, `Del`,
  `Set`, `Get`, `GetAll`, `Map`, `Keys`, `String`) is stated for maps whose
  entries are pairs (`WellFormed`) and proves that the operation returns; `Add`
  and the lookups with the empty key never index and are stated for every
  state.
* A Go `map[string][]string` is a list of bindings with each key bound once
  (`GoMap`).  The order in which `range` visits the keys of a map is left open
  by the language; `Keys` takes that order as a parameter, constrained only to
  visit every key exactly once (`IsRangeOrder`).
* An index expression `pair[i]` that is out of range panics in Go.  Functions
  that index return an `Option`, and `none` stands for that run-time panic.
* `NewOrderedMap` returns `(*OrderedMap, error)`; the result is an `Except`,
  whose `error` alternative is the Go result `(nil, err)`.
* The embedded `sync.Mutex` is acquired and released inside every exported
  mutator (`Lock` / `defer Unlock`), so in a sequential execution it is free at
  every call boundary; the exported mutators are their unexported bodies.
-/

namespace orderedmap

/-! ## Go values -/

/-- A Go slice value: the nil slice, or an allocated (possibly empty) sequence. -/
inductive Slice (α : Type) where
  | nil : Slice α
  | mk (elems : List α) : Slice α
  deriving DecidableEq, Repr

namespace Slice

/-- The elements of a slice, in order; the nil slice has none. -/
def toList {α : Type} : Slice α → List α
  | nil => []
  | mk elems => elems

/-- Go `len(s)`. -/
def len {α : Type} (s : Slice α) : Nat := s.toList.length

/-- Go `s == nil`. -/
def isNil {α : Type} : Slice α → Bool
  | nil => true
  | mk _ => false

/-- Go `append(s, x)`: the result is always allocated. -/
def append {α : Type} (s : Slice α) (x : α) : Slice α := mk (s.toList ++ [x])

end Slice

/-- Go `len(s)` for a string: the number of bytes of its UTF-8 encoding. -/
def len (s : String) : Nat := s.utf8ByteSize

/-- Go `strings.HasPrefix`, on the character sequences of the two strings. -/
def hasPrefixChars : List Char → List Char → Bool
  | _, [] => true
  | [], _ :: _ => false
  | c :: cs, d :: ds => c == d && hasPrefixChars cs ds

/-- Search for `substr` at every position of `s`, leftmost first. -/
def containsChars : List Char → List Char → Bool
  | [], substr => hasPrefixChars [] substr
  | c :: cs, substr => hasPrefixChars (c :: cs) substr || containsChars cs substr

/-- Go `strings.Contains(s, substr)`: reports whether `substr` is within `s`. -/
def Contains (s substr : String) : Bool := containsChars s.data substr.data

/-! ## The package -/

/-- The two errors `NewOrderedMap` can return (`fmt.Errorf` values in the source). -/
inductive Error where
  | paramsNil : Error
  | invalidKeypairs (keypairs : Slice (List String)) : Error
  deriving DecidableEq, Repr

/-- The struct `OrderedMap`: the field `keypairs [][]string`. -/
structure OrderedMap where
  keypairs : Slice (List String)
  deriving DecidableEq, Repr

/-- Source `isValidKeyPair`: `len(param) == 2`. -/
def isValidKeyPair (param : List String) : Bool := param.length == 2

/-- The `for ... range pairs` loop of `hasValidKeyPairs`. -/
def hasValidKeyPairsLoop : List (List String) → Bool
  | [] => true
  | pair :: rest => if !isValidKeyPair pair then false else hasValidKeyPairsLoop rest

/-- Source `hasValidKeyPairs`. -/
def hasValidKeyPairs (pairs : Slice (List String)) : Bool :=
  hasValidKeyPairsLoop pairs.toList

/-- Source `stringEquals`: `len(str1) == len(str2) && strings.Contains(str1, str2)`. -/
def stringEquals (str1 str2 : String) : Bool :=
  len str1 == len str2 && Contains str1 str2

/-- Source `NewOrderedMap`. -/
def NewOrderedMap (keypairs : Slice (List String)) : Except Error OrderedMap :=
  if keypairs.isNil then Except.error Error.paramsNil
  else if !hasValidKeyPairs keypairs then Except.error (Error.invalidKeypairs keypairs)
  else Except.ok { keypairs := keypairs }

/-- The values, in order, of the entries of `l` whose key (first element) is `key`. -/
def valuesOf (key : String) (l : List (List String)) : List String :=
  (l.filter (fun p => decide (p[0]? = some key))).filterMap (fun p => p[1]?)

namespace OrderedMap

/-- The zero value `OrderedMap{}`: the field `keypairs` is the nil slice. -/
def zero : OrderedMap := { keypairs := Slice.nil }

/-- The entry sequence of the map. -/
def entries (m : OrderedMap) : List (List String) := m.keypairs.toList

/-- Source `add`: `m.keypairs = append(m.keypairs, []string{key, value})`. -/
def add (m : OrderedMap) (key value : String) : OrderedMap :=
  { keypairs := m.keypairs.append [key, value] }

/-- Source `Add`. -/
def Add (m : OrderedMap) (key value : String) : OrderedMap := m.add key value

/-- The loop of `remove`; `pair[1]` is only evaluated when the first
comparison succeeds (`&&` short-circuits). -/
def removeLoop (key val : String) :
    List (List String) → Slice (List String) → Option (Slice (List String))
  | [], newKeyPairs => some newKeyPairs
  | pair :: rest, newKeyPairs => do
    let p0 ← pair[0]?
    let both ← (if stringEquals p0 key then (pair[1]?).map (fun p1 => stringEquals p1 val)
      else some false)
    if !both then removeLoop key val rest (newKeyPairs.append pair)
    else removeLoop key val rest newKeyPairs

/-- Source `remove`. -/
def remove (m : OrderedMap) (key val : String) : Option OrderedMap := do
  let newKeyPairs ← removeLoop key val m.keypairs.toList (Slice.mk [])
  pure { keypairs := newKeyPairs }

/-- Source `Remove`. -/
def Remove (m : OrderedMap) (key val : String) : Option OrderedMap := m.remove key val

/-- The loop of `del`. -/
def delLoop (key : String) :
    List (List String) → Slice (List String) → Option (Slice (List String))
  | [], newKeyPairs => some newKeyPairs
  | pair :: rest, newKeyPairs => do
    let p0 ← pair[0]?
    if !stringEquals p0 key then delLoop key rest (newKeyPairs.append pair)
    else delLoop key rest newKeyPairs

/-- Source `del`. -/
def del (m : OrderedMap) (key : String) : Option OrderedMap := do
  let newKeyPairs ← delLoop key m.keypairs.toList (Slice.mk [])
  pure { keypairs := newKeyPairs }

/-- Source `Del`. -/
def Del (m : OrderedMap) (key : String) : Option OrderedMap := m.del key

/-- The loop of `GetAll`; `param[1]` is only evaluated for a matching key. -/
def GetAllLoop (key : String) : List (List String) → Slice String → Option (Slice String)
  | [], keyVals => some keyVals
  | param :: rest, keyVals => do
    let paramKey ← param[0]?
    if key = paramKey then
      let v ← param[1]?
      GetAllLoop key rest (keyVals.append v)
    else GetAllLoop key rest keyVals

/-- Source `GetAll`. -/
def GetAll (m : OrderedMap) (key : String) : Option (Slice String) :=
  if key = "" then some Slice.nil
  else GetAllLoop key m.keypairs.toList (Slice.mk [])

/-- Source `Get`. -/
def Get (m : OrderedMap) (key : String) : Option String := do
  let all ← m.GetAll key
  if all.len > 0 then all.toList[0]? else pure ""

/-- Source `set`: `m.del(key)` then `m.add(key, val)`. -/
def set (m : OrderedMap) (key val : String) : Option OrderedMap := do
  let m1 ← m.del key
  pure (m1.add key val)

/-- Source `Set`. -/
def Set (m : OrderedMap) (key val : String) : Option OrderedMap := m.set key val

/-- Source `Len`: `len(m.keypairs)`. -/
def Len (m : OrderedMap) : Nat := m.keypairs.len

/-- Every stored entry is a pair: it has exactly two elements. -/
def WellFormed (m : OrderedMap) : Prop := ∀ p ∈ m.entries, p.length = 2

instance (m : OrderedMap) : Decidable m.WellFormed := by
  unfold WellFormed; infer_instance

/-- The number of entries of `m` whose key (first element) is `key`. -/
def keyCount (m : OrderedMap) (key : String) : Nat :=
  m.entries.countP (fun p => decide (p[0]? = some key))

/-- The map of the test `TestRemoveExists`. -/
def removeExample : OrderedMap :=
  { keypairs := Slice.mk [["key", "valfirst"], ["key2", "val1"], ["key", "val1"]] }

/-- The map of the test `TestDelDoubleExists`. -/
def delExample : OrderedMap :=
  { keypairs := Slice.mk [["key", "val1"], ["something", "val2"], ["key", "2"]] }

/-- The map of the test `TestSetMultipleKeys`. -/
def setExample : OrderedMap :=
  { keypairs := Slice.mk [["key", "val1"], ["key", "somethingelse"]] }

/-- The map of the test `TestEmptyDuplicateParam`. -/
def getAllExample : OrderedMap :=
  { keypairs := Slice.mk [["foo", "1"], ["bar", "2"], ["foo", "3"]] }

/-- The map of the test `TestGetMultipleVals`. -/
def getExample : OrderedMap :=
  { keypairs := Slice.mk [["key", "val1"], ["something", "val"], ["key", "val2"]] }

end OrderedMap

/-! ## The grouped view, the keys and the query string -/

/-- A Go `map[string][]string`: its bindings, each key bound at most once.  The order
of the list is the order in which the keys were first assigned; Go does not expose it. -/
abbrev GoMap := List (String × Slice String)

namespace GoMap

/-- Go `mp[key]`: the bound value, or the zero value (the nil slice) for an absent key. -/
def index : GoMap → String → Slice String
  | [], _ => Slice.nil
  | (k, v) :: rest, key => if k = key then v else index rest key

/-- Go `mp[key] = v`: rebinds `key` when it is present, adds the binding otherwise. -/
def assign : GoMap → String → Slice String → GoMap
  | [], key, v => [(key, v)]
  | (k, w) :: rest, key, v => if k = key then (k, v) :: rest else (k, w) :: assign rest key v

/-- The keys bound in the map. -/
def keys (mp : GoMap) : List String := mp.map Prod.fst

/-- Go `_, ok := mp[key]`: whether `key` is bound. -/
def has (mp : GoMap) (key : String) : Bool := decide (key ∈ keys mp)

/-- The sum of the lengths of all value lists of the map. -/
def totalLen (mp : GoMap) : Nat := (mp.map (fun kv => kv.2.len)).sum

end GoMap

/-- A `for k := range mp` loop over a Go map visits every key exactly once, in an order
the language leaves unspecified.  A range order gives, for every map, the order in which
the run time visits its keys. -/
def IsRangeOrder (order : GoMap → List String) : Prop :=
  ∀ mp : GoMap, (order mp).Perm (GoMap.keys mp)

namespace OrderedMap

/-- The loop of `Map`: `mapOut[key] = append(mapOut[key], val)` for every entry. -/
def MapLoop : List (List String) → GoMap → Option GoMap
  | [], mapOut => some mapOut
  | keyPair :: rest, mapOut => do
    let key ← keyPair[0]?
    let val ← keyPair[1]?
    MapLoop rest (GoMap.assign mapOut key ((GoMap.index mapOut key).append val))

/-- Source `Map`. -/
def Map (m : OrderedMap) : Option GoMap := MapLoop m.keypairs.toList []

/-- The loop of `Keys` over the keys in the order the map iteration visits them. -/
def KeysLoop : List String → Slice String → Slice String
  | [], keys => keys
  | k :: rest, keys => KeysLoop rest (keys.append k)

/-- Source `Keys`; `order` is the iteration order of `range m.Map()`. -/
def Keys (order : GoMap → List String) (m : OrderedMap) : Option (Slice String) := do
  let mapOut ← m.Map
  pure (KeysLoop (order mapOut) (Slice.mk []))

/-- The loop of `String`, with the index `i` of the current entry. -/
def StringLoop (numParams : Nat) : List (List String) → Nat → String → Option String
  | [], _, queryStr => some queryStr
  | queryParam :: rest, i, queryStr => do
    let k ← queryParam[0]?
    let v ← queryParam[1]?
    let queryStr1 := queryStr ++ (k ++ "=" ++ v)
    if numParams != 0 && i + 1 != numParams then
      StringLoop numParams rest (i + 1) (queryStr1 ++ "&")
    else StringLoop numParams rest (i + 1) queryStr1

end OrderedMap

/-- Source `String`; the trailing underscore keeps the name apart from the string type. -/
def OrderedMap.String_ (m : OrderedMap) : Option String :=
  let numParams := m.Len
  if numParams == 0 then some ""
  else OrderedMap.StringLoop numParams m.keypairs.toList 0 ""

/-- The text `key=value` of an entry, with no escaping. -/
def entryString (p : List String) : String := (p[0]?).getD "" ++ "=" ++ (p[1]?).getD ""

/-- The map of the test `TestMapDuplicate`. -/
def mapExample : OrderedMap :=
  { keypairs := Slice.mk [["mykey", "9"], ["blah", "blash"], ["mykey", "4"]] }

/-- The map of the test `TestKeysDuplicateNext`. -/
def keysExample : OrderedMap :=
  { keypairs := Slice.mk [["foo", "bar"], ["meh", "bar"], ["foo", "bar"]] }

/-- The keys of the entries, in sequence order, with repetitions. -/
def OrderedMap.entryKeys (m : OrderedMap) : List String :=
  m.entries.filterMap (fun p => p[0]?)

/-- The equality rule in the words of the specification: identical length, and one of
the two strings contains the other as a substring. -/
def specStringEquals (a b : String) : Bool :=
  len a == len b && (Contains a b || Contains b a)

/-- A call of one of the four mutators. -/
inductive Op where
  | add (key value : String) : Op
  | remove (key val : String) : Op
  | del (key : String) : Op
  | set (key val : String) : Op
  deriving DecidableEq, Repr

/-- The effect of one mutator call; `none` when the call panics. -/
def Op.apply (m : OrderedMap) : Op → Option OrderedMap
  | Op.add key value => some (m.Add key value)
  | Op.remove key val => m.Remove key val
  | Op.del key => m.Del key
  | Op.set key val => m.Set key val

/-- A finite sequence of mutator calls, executed in order. -/
def run : OrderedMap → List Op → Option OrderedMap
  | m, [] => some m
  | m, op :: rest => (op.apply m).bind (fun m1 => run m1 rest)

/-! ## Strings: `stringEquals` is equality -/

theorem hasPrefixChars_iff (s substr : List Char) :
    hasPrefixChars s substr = true ↔ ∃ t, s = substr ++ t := by
  induction substr generalizing s with
  | nil => simp [hasPrefixChars]
  | cons d ds ih =>
    cases s with
    | nil => simp [hasPrefixChars]
    | cons c cs =>
      simp only [hasPrefixChars, Bool.and_eq_true, beq_iff_eq, ih, List.cons_append,
        List.cons.injEq]
      constructor
      · rintro ⟨rfl, t, rfl⟩
        exact ⟨t, rfl, rfl⟩
      · rintro ⟨t, rfl, rfl⟩
        exact ⟨rfl, t, rfl⟩

theorem containsChars_iff (s substr : List Char) :
    containsChars s substr = true ↔ ∃ a b, s = a ++ substr ++ b := by
  induction s with
  | nil =>
    simp only [containsChars, hasPrefixChars_iff]
    constructor
    · rintro ⟨t, ht⟩
      exact ⟨[], t, by simpa using ht⟩
    · rintro ⟨a, b, h⟩
      have h1 : a ++ substr ++ b = [] := h.symm
      simp only [List.append_eq_nil] at h1
      exact ⟨[], by simp [h1.1.2]⟩
  | cons c cs ih =>
    simp only [containsChars, Bool.or_eq_true, hasPrefixChars_iff, ih]
    constructor
    · rintro (⟨t, ht⟩ | ⟨a, b, hab⟩)
      · exact ⟨[], t, by simpa using ht⟩
      · exact ⟨c :: a, b, by simp [hab]⟩
    · rintro ⟨a, b, h⟩
      cases a with
      | nil => exact Or.inl ⟨b, by simpa using h⟩
      | cons x xs =>
        simp only [List.cons_append, List.cons.injEq] at h
        exact Or.inr ⟨xs, b, h.2⟩

theorem utf8ByteSize_go_append (a b : List Char) :
    String.utf8ByteSize.go (a ++ b) = String.utf8ByteSize.go a + String.utf8ByteSize.go b := by
  induction a with
  | nil => simp [String.utf8ByteSize.go]
  | cons c cs ih =>
    have h : String.utf8ByteSize.go (c :: (cs ++ b))
        = String.utf8ByteSize.go (cs ++ b) + c.utf8Size := rfl
    have h2 : String.utf8ByteSize.go (c :: cs) = String.utf8ByteSize.go cs + c.utf8Size := rfl
    rw [List.cons_append, h, h2, ih]; omega

theorem utf8ByteSize_go_eq_zero (a : List Char) (h : String.utf8ByteSize.go a = 0) : a = [] := by
  cases a with
  | nil => rfl
  | cons c cs =>
    have hc := Char.utf8Size_pos c
    simp only [String.utf8ByteSize.go] at h
    omega

theorem len_eq_go (s : String) : len s = String.utf8ByteSize.go s.data := by
  cases s; rfl

/-- The comparison `stringEquals` holds exactly for equal strings. -/
theorem stringEquals_iff (str1 str2 : String) : stringEquals str1 str2 = true ↔ str1 = str2 := by
  constructor
  · intro h
    simp only [stringEquals, Bool.and_eq_true, beq_iff_eq, Contains, containsChars_iff,
      len_eq_go] at h
    obtain ⟨hl, a, b, hab⟩ := h
    rw [hab, utf8ByteSize_go_append, utf8ByteSize_go_append] at hl
    have ha : a = [] := utf8ByteSize_go_eq_zero a (by omega)
    have hb : b = [] := utf8ByteSize_go_eq_zero b (by omega)
    subst ha hb
    exact String.ext (by simpa using hab)
  · rintro rfl
    simp only [stringEquals, Bool.and_eq_true, beq_iff_eq, Contains, containsChars_iff, true_and]
    exact ⟨[], [], by simp⟩

theorem stringEquals_eq_decide (str1 str2 : String) :
    stringEquals str1 str2 = decide (str1 = str2) := by
  rw [Bool.eq_iff_iff, stringEquals_iff]; simp

/-! ## The loops as list operations -/

theorem length_two {p : List String} (h : p.length = 2) : ∃ a b, p = [a, b] := by
  match p, h with
  | [a, b], _ => exact ⟨a, b, rfl⟩

namespace OrderedMap

theorem removeLoop_eq (key val : String) (l : List (List String))
    (hl : ∀ p ∈ l, p.length = 2) (acc : List (List String)) :
    removeLoop key val l (Slice.mk acc)
      = some (Slice.mk (acc ++
          l.filter (fun p => decide (¬ (p[0]? = some key ∧ p[1]? = some val))))) := by
  induction l generalizing acc with
  | nil => simp [removeLoop]
  | cons p rest ih =>
    obtain ⟨a, b, rfl⟩ := length_two (hl p (List.mem_cons_self _ _))
    have hrest : ∀ q ∈ rest, q.length = 2 := fun q hq => hl q (List.mem_cons_of_mem _ hq)
    by_cases ha : a = key
    · by_cases hb : b = val
      · simp [removeLoop, stringEquals_eq_decide, ha, hb, ih hrest]
      · simp [removeLoop, stringEquals_eq_decide, ha, hb, ih hrest, Slice.append, Slice.toList]
    · simp [removeLoop, stringEquals_eq_decide, ha, ih hrest, Slice.append, Slice.toList]

theorem delLoop_eq (key : String) (l : List (List String))
    (hl : ∀ p ∈ l, p.length = 2) (acc : List (List String)) :
    delLoop key l (Slice.mk acc)
      = some (Slice.mk (acc ++ l.filter (fun p => decide (p[0]? ≠ some key)))) := by
  induction l generalizing acc with
  | nil => simp [delLoop]
  | cons p rest ih =>
    obtain ⟨a, b, rfl⟩ := length_two (hl p (List.mem_cons_self _ _))
    have hrest : ∀ q ∈ rest, q.length = 2 := fun q hq => hl q (List.mem_cons_of_mem _ hq)
    by_cases ha : a = key
    · simp [delLoop, stringEquals_eq_decide, ha, ih hrest]
    · simp [delLoop, stringEquals_eq_decide, ha, ih hrest, Slice.append, Slice.toList]

theorem GetAllLoop_eq (key : String) (l : List (List String))
    (hl : ∀ p ∈ l, p.length = 2) (acc : List String) :
    GetAllLoop key l (Slice.mk acc) = some (Slice.mk (acc ++ valuesOf key l)) := by
  induction l generalizing acc with
  | nil => simp [GetAllLoop, valuesOf]
  | cons p rest ih =>
    obtain ⟨a, b, rfl⟩ := length_two (hl p (List.mem_cons_self _ _))
    have hrest : ∀ q ∈ rest, q.length = 2 := fun q hq => hl q (List.mem_cons_of_mem _ hq)
    by_cases ha : key = a
    · subst ha
      simp [GetAllLoop, ih hrest, Slice.append, Slice.toList, valuesOf]
    · have ha2 : ¬ a = key := fun h => ha h.symm
      simp [GetAllLoop, ha, ha2, ih hrest, valuesOf]

theorem remove_eq (m : OrderedMap) (key val : String) (h : m.WellFormed) :
    m.remove key val
      = some (OrderedMap.mk (Slice.mk
          (m.entries.filter (fun p => decide (¬ (p[0]? = some key ∧ p[1]? = some val)))))) := by
  simp [remove, removeLoop_eq key val m.keypairs.toList h [], entries]

theorem del_eq (m : OrderedMap) (key : String) (h : m.WellFormed) :
    m.del key
      = some (OrderedMap.mk (Slice.mk
          (m.entries.filter (fun p => decide (p[0]? ≠ some key))))) := by
  simp [del, delLoop_eq key m.keypairs.toList h [], entries]

theorem GetAll_eq (m : OrderedMap) (key : String) (h : m.WellFormed) (hk : key ≠ "") :
    m.GetAll key = some (Slice.mk (valuesOf key m.entries)) := by
  simp [GetAll, hk, GetAllLoop_eq key m.keypairs.toList h [], entries]

theorem Get_eq (m : OrderedMap) (key : String) (h : m.WellFormed) (hk : key ≠ "") :
    m.Get key = some ((valuesOf key m.entries).headD "") := by
  simp only [Get, GetAll_eq m key h hk, Option.bind_eq_bind, Option.some_bind, Slice.len,
    Slice.toList]
  cases valuesOf key m.entries <;> simp

end OrderedMap

/-! ## Construction -/

theorem hasValidKeyPairsLoop_iff (l : List (List String)) :
    hasValidKeyPairsLoop l = true ↔ ∀ p ∈ l, p.length = 2 := by
  induction l with
  | nil => simp [hasValidKeyPairsLoop]
  | cons p rest ih =>
    by_cases hp : p.length = 2 <;> simp [hasValidKeyPairsLoop, isValidKeyPair, hp, ih]

/-- C1: `NewOrderedMap(keypairs)` returns an error (the Go result `(nil, err)`) if and
only if `keypairs` is the nil slice or some element of `keypairs` does not have exactly
two strings; the empty allocated batch succeeds and the batch `[["foo"]]` fails. -/
theorem C1_NewOrderedMap_error_iff (keypairs : Slice (List String)) :
    ((∃ e, NewOrderedMap keypairs = Except.error e) ↔
      (keypairs = Slice.nil ∨ ∃ p ∈ keypairs.toList, p.length ≠ 2))
    ∧ (∃ m, NewOrderedMap (Slice.mk []) = Except.ok m)
    ∧ (∃ e, NewOrderedMap (Slice.mk [["foo"]]) = Except.error e) := by
  refine ⟨?_, ⟨_, rfl⟩, ⟨_, rfl⟩⟩
  cases keypairs with
  | nil => simp [NewOrderedMap, Slice.isNil]
  | mk l =>
    by_cases h : hasValidKeyPairsLoop l = true
    · have h2 := (hasValidKeyPairsLoop_iff l).1 h
      simp only [NewOrderedMap, Slice.isNil, hasValidKeyPairs, Slice.toList, h]
      simp only [Bool.false_eq_true, if_false, Bool.not_true, reduceCtorEq, exists_false,
        false_or, false_iff, not_exists, not_and, not_not]
      exact h2
    · have h2 : ¬ ∀ p ∈ l, p.length = 2 := fun hall => h ((hasValidKeyPairsLoop_iff l).2 hall)
      simp only [Bool.not_eq_true] at h
      simp only [NewOrderedMap, Slice.isNil, hasValidKeyPairs, Slice.toList, h]
      simp only [Bool.false_eq_true, if_false, Bool.not_false, if_true, Except.error.injEq,
        exists_eq', reduceCtorEq, false_or, true_iff]
      push_neg at h2
      exact h2

/-- C2: for every valid pair batch `P` (allocated, every element of length 2),
`NewOrderedMap(P)` succeeds with a map whose entry sequence is exactly `P`, in the same
order and without deduplication, so that `Len()` is `len(P)`. -/
theorem C2_NewOrderedMap_valid (P : List (List String)) (h : ∀ p ∈ P, p.length = 2) :
    ∃ m, NewOrderedMap (Slice.mk P) = Except.ok m ∧ m.entries = P ∧ m.Len = P.length := by
  refine ⟨{ keypairs := Slice.mk P }, ?_, rfl, rfl⟩
  have hv : hasValidKeyPairsLoop P = true := (hasValidKeyPairsLoop_iff P).2 h
  simp [NewOrderedMap, Slice.isNil, hasValidKeyPairs, Slice.toList, hv]

/-- Witness for C2: a valid batch with a repeated pair keeps both copies. -/
theorem C2_NewOrderedMap_valid_witness :
    (∀ p ∈ [["foo", "1"], ["bar", "2"], ["foo", "1"]], p.length = 2) ∧
    ∃ m, NewOrderedMap (Slice.mk [["foo", "1"], ["bar", "2"], ["foo", "1"]]) = Except.ok m
      ∧ m.entries = [["foo", "1"], ["bar", "2"], ["foo", "1"]] ∧ m.Len = 3 :=
  ⟨by decide, C2_NewOrderedMap_valid [["foo", "1"], ["bar", "2"], ["foo", "1"]] (by decide)⟩

/-! ## Add -/

/-- C3: after `Add(k, v)` the entry sequence is the previous sequence followed by the
single entry `(k, v)`; every earlier position holds the entry it held before, and
`Len()` has grown by exactly one. -/
theorem C3_Add_appends (m : OrderedMap) (k v : String) :
    (m.Add k v).entries = m.entries ++ [[k, v]]
    ∧ (∀ i, i < m.Len → (m.Add k v).entries[i]? = m.entries[i]?)
    ∧ (m.Add k v).Len = m.Len + 1 := by
  have h1 : (m.Add k v).entries = m.entries ++ [[k, v]] := rfl
  refine ⟨h1, ?_, ?_⟩
  · intro i hi
    rw [h1]
    exact List.getElem?_append_left hi
  · show (m.Add k v).entries.length = m.entries.length + 1
    rw [h1]; simp

namespace OrderedMap

theorem WellFormed_Add (m : OrderedMap) (k v : String) (h : m.WellFormed) :
    (m.Add k v).WellFormed := by
  intro p hp
  have hp2 : p ∈ m.entries ++ [[k, v]] := hp
  rcases List.mem_append.1 hp2 with h1 | h1
  · exact h p h1
  · simp only [List.mem_singleton] at h1
    subst h1; rfl

theorem valuesOf_append (k : String) (l r : List (List String)) :
    valuesOf k (l ++ r) = valuesOf k l ++ valuesOf k r := by
  simp [valuesOf]

theorem valuesOf_eq_nil (k : String) (l : List (List String))
    (h : ∀ p ∈ l, p[0]? ≠ some k) : valuesOf k l = [] := by
  have hf : l.filter (fun p => decide (p[0]? = some k)) = [] := by
    rw [List.filter_eq_nil_iff]
    intro p hp
    simpa using h p hp
  simp [valuesOf, hf]

theorem valuesOf_ne_nil (k : String) (l : List (List String))
    (hl : ∀ p ∈ l, p.length = 2) (h : ∃ p ∈ l, p[0]? = some k) : valuesOf k l ≠ [] := by
  obtain ⟨p, hp, hpk⟩ := h
  obtain ⟨a, b, rfl⟩ := length_two (hl p hp)
  intro hnil
  have hmem : b ∈ valuesOf k l := by
    simp only [valuesOf, List.mem_filterMap, List.mem_filter, decide_eq_true_eq]
    exact ⟨[a, b], ⟨hp, hpk⟩, rfl⟩
  rw [hnil] at hmem
  exact List.not_mem_nil _ hmem

end OrderedMap

/-- C4 (as stated, refuted at the empty key): on the zero value, which has no entry with
key `""`, `Add("", "x")` is followed by `Get("") == ""`, not `"x"`; and on the map
`[["", "a"]]`, which has an entry with key `""`, `Add("", "x")` is followed by
`GetAll("")` returning the nil slice, which has no last element. -/
theorem C4_empty_key_counterexample :
    (OrderedMap.zero.WellFormed ∧ (∀ p ∈ OrderedMap.zero.entries, p[0]? ≠ some "")
      ∧ (OrderedMap.zero.Add "" "x").Get "" = some ""
      ∧ (OrderedMap.zero.Add "" "x").Get "" ≠ some "x")
    ∧ ((OrderedMap.mk (Slice.mk [["", "a"]])).WellFormed
      ∧ (∃ p ∈ (OrderedMap.mk (Slice.mk [["", "a"]])).entries, p[0]? = some "")
      ∧ ((OrderedMap.mk (Slice.mk [["", "a"]])).Add "" "x").GetAll "" = some Slice.nil
      ∧ (Slice.nil : Slice String).toList.getLast? ≠ some "x") := by
  decide

/-- C4 (amended): for every map whose entries are pairs, every non-empty key `k` and
every `v`: after `Add(k, v)`, if no prior entry had key `k` then `Get(k) == v`;
otherwise `Get(k)` returns what it returned before the `Add` and the last element of
`GetAll(k)` is `v`. -/
theorem C4_Add_then_Get (m : OrderedMap) (k v : String) (hm : m.WellFormed) (hk : k ≠ "") :
    ((∀ p ∈ m.entries, p[0]? ≠ some k) → (m.Add k v).Get k = some v)
    ∧ ((∃ p ∈ m.entries, p[0]? = some k) →
        (∃ x, m.Get k = some x ∧ (m.Add k v).Get k = some x)
        ∧ (∃ vs, (m.Add k v).GetAll k = some vs ∧ vs.toList.getLast? = some v)) := by
  have hadd : (m.Add k v).entries = m.entries ++ [[k, v]] := rfl
  have hvals : valuesOf k (m.Add k v).entries = valuesOf k m.entries ++ [v] := by
    rw [hadd, OrderedMap.valuesOf_append]
    simp [valuesOf]
  have hwf := OrderedMap.WellFormed_Add m k v hm
  constructor
  · intro hno
    rw [OrderedMap.Get_eq _ k hwf hk, hvals, OrderedMap.valuesOf_eq_nil k _ hno]
    rfl
  · intro hex
    have hne := OrderedMap.valuesOf_ne_nil k m.entries hm hex
    refine ⟨⟨(valuesOf k m.entries).headD "", OrderedMap.Get_eq m k hm hk, ?_⟩,
      ⟨Slice.mk (valuesOf k m.entries ++ [v]), ?_, ?_⟩⟩
    · rw [OrderedMap.Get_eq _ k hwf hk, hvals]
      cases hv : valuesOf k m.entries with
      | nil => exact absurd hv hne
      | cons a t => rfl
    · rw [OrderedMap.GetAll_eq _ k hwf hk, hvals]
    · simp [Slice.toList]

/-- Witness for C4: the map `[["key", "val1"]]` and `Add("key", "val2")`, as in the
test `TestAddExists`. -/
theorem C4_Add_then_Get_witness :
    (OrderedMap.mk (Slice.mk [["key", "val1"]])).WellFormed ∧ "key" ≠ "" ∧
    (((∀ p ∈ (OrderedMap.mk (Slice.mk [["key", "val1"]])).entries, p[0]? ≠ some "key") →
        ((OrderedMap.mk (Slice.mk [["key", "val1"]])).Add "key" "val2").Get "key" = some "val2")
    ∧ ((∃ p ∈ (OrderedMap.mk (Slice.mk [["key", "val1"]])).entries, p[0]? = some "key") →
        (∃ x, (OrderedMap.mk (Slice.mk [["key", "val1"]])).Get "key" = some x
          ∧ ((OrderedMap.mk (Slice.mk [["key", "val1"]])).Add "key" "val2").Get "key" = some x)
        ∧ (∃ vs, ((OrderedMap.mk (Slice.mk [["key", "val1"]])).Add "key" "val2").GetAll "key"
              = some vs ∧ vs.toList.getLast? = some "val2"))) :=
  ⟨by decide, by decide,
    C4_Add_then_Get (OrderedMap.mk (Slice.mk [["key", "val1"]])) "key" "val2"
      (by decide) (by decide)⟩

/-! ## Remove, Del, Set -/

namespace OrderedMap

theorem WellFormed_filter (m : OrderedMap) (f : List String → Bool) (h : m.WellFormed) :
    (OrderedMap.mk (Slice.mk (m.entries.filter f))).WellFormed := by
  intro p hp
  exact h p (List.mem_of_mem_filter hp)

theorem length_filter_add_keyCount (m : OrderedMap) (k : String) :
    (m.entries.filter (fun p => decide (p[0]? ≠ some k))).length + m.keyCount k
      = m.entries.length := by
  show (m.entries.filter (fun p => decide (p[0]? ≠ some k))).length
      + m.entries.countP (fun p => decide (p[0]? = some k)) = m.entries.length
  rw [← List.countP_eq_length_filter,
    List.length_eq_countP_add_countP (fun p => decide (p[0]? = some k)) m.entries]
  have : (fun p : List String => decide (p[0]? ≠ some k))
      = (fun p => decide ¬ (decide (p[0]? = some k) = true)) := by
    funext p; simp
  rw [this]; omega

theorem headD_valuesOf (k : String) (l : List (List String)) (hl : ∀ p ∈ l, p.length = 2) :
    (valuesOf k l).headD ""
      = ((l.find? (fun p => decide (p[0]? = some k))).bind (fun p => p[1]?)).getD "" := by
  induction l with
  | nil => rfl
  | cons p rest ih =>
    obtain ⟨a, b, rfl⟩ := length_two (hl p (List.mem_cons_self _ _))
    have hrest : ∀ q ∈ rest, q.length = 2 := fun q hq => hl q (List.mem_cons_of_mem _ hq)
    by_cases ha : a = k
    · simp [valuesOf, List.filter_cons, List.find?_cons, ha]
    · have h1 : valuesOf k ([a, b] :: rest) = valuesOf k rest := by
        simp [valuesOf, List.filter_cons, ha]
      rw [h1, ih hrest]
      simp [List.find?_cons, ha]

theorem length_valuesOf (k : String) (l : List (List String)) (hl : ∀ p ∈ l, p.length = 2) :
    (valuesOf k l).length = l.countP (fun p => decide (p[0]? = some k)) := by
  induction l with
  | nil => rfl
  | cons p rest ih =>
    obtain ⟨a, b, rfl⟩ := length_two (hl p (List.mem_cons_self _ _))
    have hrest : ∀ q ∈ rest, q.length = 2 := fun q hq => hl q (List.mem_cons_of_mem _ hq)
    have ih2 := ih hrest
    simp only [valuesOf] at ih2
    by_cases ha : a = k
    · simp [valuesOf, List.filter_cons, List.countP_cons, ha, ih2]
    · simp [valuesOf, List.filter_cons, List.countP_cons, ha, ih2]

end OrderedMap

/-- C5: on a map whose entries are pairs, `Remove(k, v)` returns, and the entry sequence
afterwards is the previous sequence with exactly the entries whose key is `k` and whose
value is `v` dropped: the survivors keep their relative order, every other entry (same
key with another value, same value with another key) is kept with its multiplicity, and
when nothing matches the sequence is unchanged. -/
theorem C5_Remove_exact_matches (m : OrderedMap) (k v : String) (hm : m.WellFormed) :
    ∃ m', m.Remove k v = some m'
      ∧ m'.entries = m.entries.filter (fun p => decide (¬ (p[0]? = some k ∧ p[1]? = some v)))
      ∧ m'.entries.Sublist m.entries
      ∧ (∀ p, ¬ (p[0]? = some k ∧ p[1]? = some v) → m'.entries.count p = m.entries.count p)
      ∧ (∀ p ∈ m'.entries, ¬ (p[0]? = some k ∧ p[1]? = some v))
      ∧ ((∀ p ∈ m.entries, ¬ (p[0]? = some k ∧ p[1]? = some v)) → m'.entries = m.entries) := by
  refine ⟨_, OrderedMap.remove_eq m k v hm, rfl, ?_, ?_, ?_, ?_⟩
  · exact List.filter_sublist _
  · intro p hp
    exact List.count_filter (decide_eq_true hp)
  · intro p hp
    exact of_decide_eq_true (List.mem_filter.1 hp).2
  · intro hall
    exact List.filter_eq_self.2 (fun p hp => decide_eq_true (hall p hp))

/-- Witness for C5: the scenario of `TestRemoveExists`. -/
theorem C5_Remove_exact_matches_witness :
    OrderedMap.removeExample.WellFormed ∧
    ∃ m', OrderedMap.removeExample.Remove "key" "val1" = some m'
      ∧ m'.entries = OrderedMap.removeExample.entries.filter
          (fun p => decide (¬ (p[0]? = some "key" ∧ p[1]? = some "val1")))
      ∧ m'.entries.Sublist OrderedMap.removeExample.entries
      ∧ (∀ p, ¬ (p[0]? = some "key" ∧ p[1]? = some "val1") →
          m'.entries.count p = OrderedMap.removeExample.entries.count p)
      ∧ (∀ p ∈ m'.entries, ¬ (p[0]? = some "key" ∧ p[1]? = some "val1"))
      ∧ ((∀ p ∈ OrderedMap.removeExample.entries,
            ¬ (p[0]? = some "key" ∧ p[1]? = some "val1")) →
          m'.entries = OrderedMap.removeExample.entries) :=
  ⟨by decide, C5_Remove_exact_matches OrderedMap.removeExample "key" "val1" (by decide)⟩

/-- C6: on a map whose entries are pairs, `Del(k)` returns, and the entry sequence
afterwards is the previous sequence with exactly the entries whose key is `k` dropped,
survivors in their original order; `Get(k)` then returns the empty string and `Len()`
has decreased by exactly the number of entries that had key `k`. -/
theorem C6_Del_drops_key (m : OrderedMap) (k : String) (hm : m.WellFormed) :
    ∃ m', m.Del k = some m'
      ∧ m'.entries = m.entries.filter (fun p => decide (p[0]? ≠ some k))
      ∧ m'.entries.Sublist m.entries
      ∧ m'.Get k = some ""
      ∧ m'.Len + m.keyCount k = m.Len := by
  refine ⟨_, OrderedMap.del_eq m k hm, rfl, List.filter_sublist _, ?_, ?_⟩
  · by_cases hk : k = ""
    · subst hk; rfl
    · rw [OrderedMap.Get_eq _ k (OrderedMap.WellFormed_filter m _ hm) hk]
      rw [OrderedMap.valuesOf_eq_nil]
      · rfl
      · intro p hp
        have hp2 : p ∈ m.entries.filter (fun p => decide (p[0]? ≠ some k)) := hp
        have := (List.mem_filter.1 hp2).2
        simpa using this
  · exact OrderedMap.length_filter_add_keyCount m k

/-- Witness for C6: the scenario of `TestDelDoubleExists`. -/
theorem C6_Del_drops_key_witness :
    OrderedMap.delExample.WellFormed ∧
    ∃ m', OrderedMap.delExample.Del "key" = some m'
      ∧ m'.entries = OrderedMap.delExample.entries.filter
          (fun p => decide (p[0]? ≠ some "key"))
      ∧ m'.entries.Sublist OrderedMap.delExample.entries
      ∧ m'.Get "key" = some ""
      ∧ m'.Len + OrderedMap.delExample.keyCount "key" = OrderedMap.delExample.Len :=
  ⟨by decide, C6_Del_drops_key OrderedMap.delExample "key" (by decide)⟩

/-- C7: on a map whose entries are pairs, `Set(k, v)` returns and leaves the state that
`Del(k)` followed by `Add(k, v)` leaves; afterwards exactly one entry has key `k`, that
entry is `(k, v)`, it is the last entry of the sequence, and `Len()` is the previous
`Len()` minus the number of prior entries with key `k`, plus one. -/
theorem C7_Set_is_Del_then_Add (m : OrderedMap) (k v : String) (hm : m.WellFormed) :
    ∃ m', m.Set k v = some m'
      ∧ (m.Del k).map (fun d => d.Add k v) = some m'
      ∧ m'.keyCount k = 1
      ∧ (∀ p ∈ m'.entries, p[0]? = some k → p = [k, v])
      ∧ m'.entries.getLast? = some [k, v]
      ∧ m'.Len + m.keyCount k = m.Len + 1 := by
  have hdel := OrderedMap.del_eq m k hm
  have hent : ((OrderedMap.mk (Slice.mk
      (m.entries.filter (fun p => decide (p[0]? ≠ some k))))).add k v).entries
      = m.entries.filter (fun p => decide (p[0]? ≠ some k)) ++ [[k, v]] := rfl
  refine ⟨(OrderedMap.mk (Slice.mk
      (m.entries.filter (fun p => decide (p[0]? ≠ some k))))).add k v, ?_, ?_, ?_, ?_, ?_, ?_⟩
  · simp [OrderedMap.Set, OrderedMap.set, hdel]
  · simp [OrderedMap.Del, OrderedMap.Add, hdel]
  · have h0 : (m.entries.filter (fun p => decide (p[0]? ≠ some k))).countP
        (fun p => decide (p[0]? = some k)) = 0 := by
      rw [List.countP_eq_zero]
      intro p hp
      have := (List.mem_filter.1 hp).2
      simpa using this
    show List.countP _ _ = 1
    rw [hent, List.countP_append, h0]
    simp
  · intro p hp hpk
    rw [hent] at hp
    rcases List.mem_append.1 hp with h1 | h1
    · have := of_decide_eq_true (List.mem_filter.1 h1).2
      exact absurd hpk this
    · simpa using h1
  · rw [hent]
    exact List.getLast?_concat _
  · show (OrderedMap.entries _).length + _ = m.entries.length + 1
    rw [hent, List.length_append]
    have := OrderedMap.length_filter_add_keyCount m k
    simp only [List.length_singleton]
    omega

/-- Witness for C7: the scenario of `TestSetMultipleKeys`. -/
theorem C7_Set_is_Del_then_Add_witness :
    OrderedMap.setExample.WellFormed ∧
    ∃ m', OrderedMap.setExample.Set "key" "val2" = some m'
      ∧ (OrderedMap.setExample.Del "key").map (fun d => d.Add "key" "val2") = some m'
      ∧ m'.keyCount "key" = 1
      ∧ (∀ p ∈ m'.entries, p[0]? = some "key" → p = ["key", "val2"])
      ∧ m'.entries.getLast? = some ["key", "val2"]
      ∧ m'.Len + OrderedMap.setExample.keyCount "key" = OrderedMap.setExample.Len + 1 :=
  ⟨by decide, C7_Set_is_Del_then_Add OrderedMap.setExample "key" "val2" (by decide)⟩

/-! ## Lookups -/

/-- C8: on a map whose entries are pairs and for a non-empty key `k`, `GetAll(k)`
returns exactly the values of the entries whose key is `k`, in the order of the
sequence, one value per such entry; it is the empty list when no entry has key `k`,
and `[[foo,1],[bar,2],[foo,3]]` gives `["1","3"]` for `"foo"`. -/
theorem C8_GetAll_values_in_order (m : OrderedMap) (k : String) (hm : m.WellFormed)
    (hk : k ≠ "") :
    (∃ vs, m.GetAll k = some vs
      ∧ vs.toList = (m.entries.filter (fun p => decide (p[0]? = some k))).filterMap
          (fun p => p[1]?)
      ∧ vs.len = m.keyCount k)
    ∧ ((∀ p ∈ m.entries, p[0]? ≠ some k) → m.GetAll k = some (Slice.mk []))
    ∧ OrderedMap.getAllExample.GetAll "foo" = some (Slice.mk ["1", "3"]) := by
  refine ⟨⟨_, OrderedMap.GetAll_eq m k hm hk, rfl,
    OrderedMap.length_valuesOf k m.entries hm⟩, ?_, by decide⟩
  intro hno
  rw [OrderedMap.GetAll_eq m k hm hk, OrderedMap.valuesOf_eq_nil k _ hno]

/-- Witness for C8: the scenario of `TestEmptyDuplicateParam`. -/
theorem C8_GetAll_values_in_order_witness :
    OrderedMap.getAllExample.WellFormed ∧ "foo" ≠ "" ∧
    ((∃ vs, OrderedMap.getAllExample.GetAll "foo" = some vs
      ∧ vs.toList = (OrderedMap.getAllExample.entries.filter
          (fun p => decide (p[0]? = some "foo"))).filterMap (fun p => p[1]?)
      ∧ vs.len = OrderedMap.getAllExample.keyCount "foo")
    ∧ ((∀ p ∈ OrderedMap.getAllExample.entries, p[0]? ≠ some "foo") →
        OrderedMap.getAllExample.GetAll "foo" = some (Slice.mk []))
    ∧ OrderedMap.getAllExample.GetAll "foo" = some (Slice.mk ["1", "3"])) :=
  ⟨by decide, by decide,
    C8_GetAll_values_in_order OrderedMap.getAllExample "foo" (by decide) (by decide)⟩

/-- C9: on a map whose entries are pairs and for a non-empty key `k`, `Get(k)` returns
the value of the first entry of the sequence whose key is `k`, and the empty string
when no entry has key `k`. -/
theorem C9_Get_first_value (m : OrderedMap) (k : String) (hm : m.WellFormed) (hk : k ≠ "") :
    (∀ pre b post, m.entries = pre ++ [k, b] :: post → (∀ p ∈ pre, p[0]? ≠ some k) →
        m.Get k = some b)
    ∧ ((∀ p ∈ m.entries, p[0]? ≠ some k) → m.Get k = some "")
    ∧ m.Get k = some (((m.entries.find? (fun p => decide (p[0]? = some k))).bind
        (fun p => p[1]?)).getD "") := by
  refine ⟨?_, ?_, ?_⟩
  · intro pre b post hsplit hpre
    rw [OrderedMap.Get_eq m k hm hk, hsplit, OrderedMap.valuesOf_append,
      OrderedMap.valuesOf_eq_nil k pre hpre]
    simp [valuesOf, List.filter_cons]
  · intro hno
    rw [OrderedMap.Get_eq m k hm hk, OrderedMap.valuesOf_eq_nil k _ hno]
    rfl
  · rw [OrderedMap.Get_eq m k hm hk, OrderedMap.headD_valuesOf k m.entries hm]

/-- Witness for C9: the scenario of `TestGetMultipleVals`. -/
theorem C9_Get_first_value_witness :
    OrderedMap.getExample.WellFormed ∧ "key" ≠ "" ∧
    ((∀ pre b post, OrderedMap.getExample.entries = pre ++ ["key", b] :: post →
        (∀ p ∈ pre, p[0]? ≠ some "key") → OrderedMap.getExample.Get "key" = some b)
    ∧ ((∀ p ∈ OrderedMap.getExample.entries, p[0]? ≠ some "key") →
        OrderedMap.getExample.Get "key" = some "")
    ∧ OrderedMap.getExample.Get "key"
        = some (((OrderedMap.getExample.entries.find?
            (fun p => decide (p[0]? = some "key"))).bind (fun p => p[1]?)).getD "")) :=
  ⟨by decide, by decide,
    C9_Get_first_value OrderedMap.getExample "key" (by decide) (by decide)⟩

/-- C10: for every map, whatever its contents (entries need not even be pairs, and
entries whose key is the empty string may be present), `Get("")` returns the empty
string and `GetAll("")` returns a slice with no elements. -/
theorem C10_empty_key_lookup (m : OrderedMap) :
    m.Get "" = some "" ∧ (m.GetAll "").map Slice.toList = some []
    ∧ (OrderedMap.mk (Slice.mk [["", "x"]])).Get "" = some ""
    ∧ ((OrderedMap.mk (Slice.mk [["", "x"]])).GetAll "").map Slice.toList = some [] := by
  have h : m.GetAll "" = some Slice.nil := rfl
  refine ⟨?_, ?_, by decide, by decide⟩
  · simp [OrderedMap.Get, h, Slice.len, Slice.toList]
  · simp [h, Slice.toList]

/-! ## The grouped view -/

namespace GoMap

theorem keys_assign (mp : GoMap) (key : String) (v : Slice String) :
    keys (assign mp key v) = if key ∈ keys mp then keys mp else keys mp ++ [key] := by
  induction mp with
  | nil => simp [assign, keys]
  | cons kv rest ih =>
    obtain ⟨k, w⟩ := kv
    by_cases h : k = key
    · simp [assign, keys, h]
    · have h2 : ¬ key = k := fun e => h e.symm
      simp only [keys] at ih
      by_cases hm : key ∈ List.map Prod.fst rest
      · simp [assign, keys, h, h2, hm, ih]
      · simp [assign, keys, h, h2, hm, ih]

theorem index_assign (mp : GoMap) (key : String) (v : Slice String) (key2 : String) :
    index (assign mp key v) key2 = if key = key2 then v else index mp key2 := by
  induction mp with
  | nil =>
    by_cases h : key = key2 <;> simp [assign, index, h]
  | cons kv rest ih =>
    obtain ⟨k, w⟩ := kv
    by_cases h : k = key
    · subst h
      by_cases h2 : k = key2 <;> simp [assign, index, h2]
    · by_cases h2 : k = key2
      · subst h2
        have h3 : ¬ key = k := fun e => h e.symm
        simp [assign, index, h, h3]
      · simp [assign, index, h, h2, ih]

theorem totalLen_assign (mp : GoMap) (key : String) (v : Slice String) :
    totalLen (assign mp key v) + (index mp key).len = totalLen mp + v.len := by
  induction mp with
  | nil => simp [assign, index, totalLen, Slice.len, Slice.toList]
  | cons kv rest ih =>
    obtain ⟨k, w⟩ := kv
    by_cases h : k = key
    · simp only [assign, index, h, if_true, totalLen, List.map_cons, List.sum_cons]
      omega
    · simp only [assign, index, h, if_false, totalLen, List.map_cons, List.sum_cons]
      simp only [totalLen] at ih
      omega

theorem nodup_keys_assign (mp : GoMap) (key : String) (v : Slice String)
    (h : (keys mp).Nodup) : (keys (assign mp key v)).Nodup := by
  rw [keys_assign]
  by_cases hm : key ∈ keys mp
  · simpa [hm] using h
  · simp only [hm, if_false]
    exact List.Nodup.append h (List.nodup_singleton key) (by simpa using hm)

theorem index_of_not_mem (mp : GoMap) (key : String) (h : key ∉ keys mp) :
    index mp key = Slice.nil := by
  induction mp with
  | nil => rfl
  | cons kv rest ih =>
    obtain ⟨k, w⟩ := kv
    simp only [keys, List.map_cons, List.mem_cons, not_or] at h
    have h1 : ¬ k = key := fun e => h.1 e.symm
    simp only [index, h1, if_false]
    exact ih h.2

end GoMap

namespace OrderedMap

theorem MapLoop_spec (l : List (List String)) (hl : ∀ p ∈ l, p.length = 2) (mp : GoMap)
    (hnd : (GoMap.keys mp).Nodup) :
    ∃ mp', MapLoop l mp = some mp'
      ∧ (GoMap.keys mp').Nodup
      ∧ (∀ k, k ∈ GoMap.keys mp' ↔ k ∈ GoMap.keys mp ∨ ∃ p ∈ l, p[0]? = some k)
      ∧ (∀ k, (GoMap.index mp' k).toList = (GoMap.index mp k).toList ++ valuesOf k l)
      ∧ GoMap.totalLen mp' = GoMap.totalLen mp + l.length := by
  induction l generalizing mp with
  | nil => exact ⟨mp, rfl, hnd, by simp, by simp [valuesOf], by simp⟩
  | cons p rest ih =>
    obtain ⟨a, b, rfl⟩ := length_two (hl p (List.mem_cons_self _ _))
    have hrest : ∀ q ∈ rest, q.length = 2 := fun q hq => hl q (List.mem_cons_of_mem _ hq)
    obtain ⟨mp', h1, h2, h3, h4, h5⟩ := ih hrest
      (GoMap.assign mp a ((GoMap.index mp a).append b)) (GoMap.nodup_keys_assign mp a _ hnd)
    refine ⟨mp', by simpa [MapLoop] using h1, h2, ?_, ?_, ?_⟩
    · intro k
      rw [h3 k, GoMap.keys_assign]
      by_cases hm : a ∈ GoMap.keys mp
      · by_cases hk : a = k
        · subst hk; simp [hm]
        · simp [hm, hk]
      · by_cases hk : a = k
        · subst hk; simp [hm]
        · have hk2 : ¬ k = a := fun e => hk e.symm
          simp [hm, hk, hk2]
    · intro k
      rw [h4 k, GoMap.index_assign]
      by_cases hk : a = k
      · subst hk
        simp [valuesOf, List.filter_cons, Slice.append, Slice.toList]
      · simp [valuesOf, List.filter_cons, hk]
    · rw [h5]
      have hlen : ((GoMap.index mp a).append b).len = (GoMap.index mp a).len + 1 := by
        simp [Slice.append, Slice.len, Slice.toList]
      have := GoMap.totalLen_assign mp a ((GoMap.index mp a).append b)
      rw [hlen] at this
      simp only [List.length_cons]
      omega

theorem Map_spec (m : OrderedMap) (hm : m.WellFormed) :
    ∃ mp, m.Map = some mp
      ∧ (GoMap.keys mp).Nodup
      ∧ (∀ k, k ∈ GoMap.keys mp ↔ ∃ p ∈ m.entries, p[0]? = some k)
      ∧ (∀ k, (GoMap.index mp k).toList = valuesOf k m.entries)
      ∧ GoMap.totalLen mp = m.entries.length := by
  obtain ⟨mp, h1, h2, h3, h4, h5⟩ := MapLoop_spec m.entries hm [] (by simp [GoMap.keys])
  refine ⟨mp, h1, h2, ?_, ?_, ?_⟩
  · intro k; rw [h3 k]; simp [GoMap.keys]
  · intro k; rw [h4 k]; simp [GoMap.index, Slice.toList]
  · rw [h5]; simp [GoMap.totalLen]

end OrderedMap

/-! ## GetAll and the nil slice -/

/-- C11 (as stated, refuted at the empty key): on the zero value, and on a map that
holds an entry, `GetAll("")` returns the nil slice, not an allocated empty one. -/
theorem C11_empty_key_nil_counterexample :
    OrderedMap.zero.GetAll "" = some Slice.nil
    ∧ OrderedMap.getAllExample.GetAll "" = some Slice.nil
    ∧ (Slice.nil : Slice String).isNil = true
    ∧ OrderedMap.zero.GetAll "" ≠ some (Slice.mk []) := by
  decide

/-- C11 (amended): on a map whose entries are pairs and for a non-empty key `k`,
`GetAll(k)` never returns the nil slice; when no entry has key `k` it returns the
allocated empty slice.  For the empty-string key it returns the nil slice. -/
theorem C11_GetAll_never_nil_for_nonempty_key (m : OrderedMap) (k : String)
    (hm : m.WellFormed) (hk : k ≠ "") :
    (∃ vs, m.GetAll k = some vs ∧ vs.isNil = false)
    ∧ ((∀ p ∈ m.entries, p[0]? ≠ some k) → m.GetAll k = some (Slice.mk []))
    ∧ m.GetAll "" = some Slice.nil := by
  refine ⟨⟨_, OrderedMap.GetAll_eq m k hm hk, rfl⟩, ?_, rfl⟩
  intro hno
  rw [OrderedMap.GetAll_eq m k hm hk, OrderedMap.valuesOf_eq_nil k _ hno]

/-- Witness for C11: the zero value and the key `"foo"`, as in `TestEmptyOrderedMap`. -/
theorem C11_GetAll_never_nil_for_nonempty_key_witness :
    OrderedMap.zero.WellFormed ∧ "foo" ≠ "" ∧
    ((∃ vs, OrderedMap.zero.GetAll "foo" = some vs ∧ vs.isNil = false)
    ∧ ((∀ p ∈ OrderedMap.zero.entries, p[0]? ≠ some "foo") →
        OrderedMap.zero.GetAll "foo" = some (Slice.mk []))
    ∧ OrderedMap.zero.GetAll "" = some Slice.nil) :=
  ⟨by decide, by decide,
    C11_GetAll_never_nil_for_nonempty_key OrderedMap.zero "foo" (by decide) (by decide)⟩

/-! ## The query string -/

namespace OrderedMap

theorem StringLoop_eq (n : Nat) (rest : List (List String)) (hl : ∀ p ∈ rest, p.length = 2)
    (x : List String) (hx : x.length = 2) (i : Nat) (hi : i + (rest.length + 1) = n)
    (acc : String) :
    StringLoop n (x :: rest) i acc
      = some (String.intercalate.go (acc ++ entryString x) "&" (rest.map entryString)) := by
  induction rest generalizing x i acc with
  | nil =>
    obtain ⟨a, b, rfl⟩ := length_two hx
    have h1 : i + 1 = n := by simpa using hi
    simp [StringLoop, h1, entryString, String.intercalate.go]
  | cons y rest ih =>
    obtain ⟨a, b, rfl⟩ := length_two hx
    have hy : y.length = 2 := hl y (List.mem_cons_self _ _)
    have hrest : ∀ q ∈ rest, q.length = 2 := fun q hq => hl q (List.mem_cons_of_mem _ hq)
    have h1 : ¬ i + 1 = n := by simp only [List.length_cons] at hi; omega
    have h2 : ¬ n = 0 := by omega
    have hstep : StringLoop n ([a, b] :: y :: rest) i acc
        = StringLoop n (y :: rest) (i + 1) (acc ++ (a ++ "=" ++ b) ++ "&") := by
      simp [StringLoop, h1, h2]
    rw [hstep, ih hrest y hy (i + 1) (by simp only [List.length_cons] at hi ⊢; omega)]
    simp [entryString, String.intercalate.go]

theorem String_eq (m : OrderedMap) (hm : m.WellFormed) :
    m.String_ = some ("&".intercalate (m.entries.map entryString)) := by
  cases hent : m.entries with
  | nil =>
    have h0 : m.Len = 0 := by
      show m.entries.length = 0
      rw [hent]; rfl
    simp [String_, h0, String.intercalate]
  | cons x rest =>
    have hx : x.length = 2 := hm x (by rw [hent]; exact List.mem_cons_self _ _)
    have hrest : ∀ q ∈ rest, q.length = 2 :=
      fun q hq => hm q (by rw [hent]; exact List.mem_cons_of_mem _ hq)
    have hlen : m.Len = rest.length + 1 := by
      show m.entries.length = rest.length + 1
      rw [hent]; rfl
    have hk : m.keypairs.toList = x :: rest := hent
    have h := StringLoop_eq (rest.length + 1) rest hrest x hx 0 (by omega) ""
    simp only [String_, hlen, hk, h]
    simp [String.intercalate]

end OrderedMap

/-- C12: on a map whose entries are pairs, `String()` returns the texts `key=value` of
the entries, in sequence order, joined by `&` (no leading or trailing separator, no
escaping); it is the empty string when `Len() == 0`. -/
theorem C12_String_joins_entries (m : OrderedMap) (hm : m.WellFormed) :
    m.String_ = some ("&".intercalate (m.entries.map (fun p =>
        (p[0]?).getD "" ++ "=" ++ (p[1]?).getD "")))
    ∧ (m.Len = 0 → m.String_ = some "")
    ∧ OrderedMap.getAllExample.String_ = some "foo=1&bar=2&foo=3"
    ∧ (OrderedMap.mk (Slice.mk [["a&b", "c=d"], ["", ""]])).String_ = some "a&b=c=d&=" := by
  refine ⟨OrderedMap.String_eq m hm, ?_, by decide, by decide⟩
  intro h0
  simp [OrderedMap.String_, h0]

/-- Witness for C12: the scenario of `TestGetStrTwoParamsOneVal`. -/
theorem C12_String_joins_entries_witness :
    (OrderedMap.mk (Slice.mk [["test", "1"], ["foobar", "2"], ["test", "4"]])).WellFormed
    ∧ (OrderedMap.mk (Slice.mk [["test", "1"], ["foobar", "2"], ["test", "4"]])).String_
        = some "test=1&foobar=2&test=4" :=
  ⟨by decide,
    (C12_String_joins_entries
      (OrderedMap.mk (Slice.mk [["test", "1"], ["foobar", "2"], ["test", "4"]]))
      (by decide)).1.trans (by decide)⟩

/-! ## Map and Keys -/

/-- C13: on a map whose entries are pairs, `Map()` returns a mapping that binds a key
`k` exactly when some entry has key `k`, each key once, and `Map()[k]` is the list of
the values of the entries with key `k` in sequence order; for the empty map it is the
empty mapping. -/
theorem C13_Map_groups_values (m : OrderedMap) (hm : m.WellFormed) :
    (∃ mp, m.Map = some mp
      ∧ (∀ k, GoMap.has mp k = true ↔ ∃ p ∈ m.entries, p[0]? = some k)
      ∧ (∀ k, (GoMap.index mp k).toList
          = (m.entries.filter (fun p => decide (p[0]? = some k))).filterMap (fun p => p[1]?))
      ∧ (GoMap.keys mp).Nodup
      ∧ (m.entries = [] → mp = []))
    ∧ GoMap.index (mapExample.Map.getD []) "mykey" = Slice.mk ["9", "4"]
    ∧ GoMap.index (mapExample.Map.getD []) "blah" = Slice.mk ["blash"] := by
  refine ⟨?_, by decide, by decide⟩
  obtain ⟨mp, h1, h2, h3, h4, _⟩ := OrderedMap.Map_spec m hm
  refine ⟨mp, h1, ?_, h4, h2, ?_⟩
  · intro k
    rw [← h3 k]
    simp [GoMap.has]
  · intro hnil
    have hk : m.keypairs.toList = [] := hnil
    have h5 : m.Map = some [] := by simp [OrderedMap.Map, hk, OrderedMap.MapLoop]
    rw [h5] at h1
    exact (Option.some.inj h1).symm

/-- Witness for C13: the scenario of `TestMapDuplicate`. -/
theorem C13_Map_groups_values_witness :
    mapExample.WellFormed ∧
    ((∃ mp, mapExample.Map = some mp
      ∧ (∀ k, GoMap.has mp k = true ↔ ∃ p ∈ mapExample.entries, p[0]? = some k)
      ∧ (∀ k, (GoMap.index mp k).toList
          = (mapExample.entries.filter (fun p => decide (p[0]? = some k))).filterMap
              (fun p => p[1]?))
      ∧ (GoMap.keys mp).Nodup
      ∧ (mapExample.entries = [] → mp = []))
    ∧ GoMap.index (mapExample.Map.getD []) "mykey" = Slice.mk ["9", "4"]
    ∧ GoMap.index (mapExample.Map.getD []) "blah" = Slice.mk ["blash"]) :=
  ⟨by decide, C13_Map_groups_values mapExample (by decide)⟩

namespace OrderedMap

theorem KeysLoop_eq (visit : List String) (acc : List String) :
    KeysLoop visit (Slice.mk acc) = Slice.mk (acc ++ visit) := by
  induction visit generalizing acc with
  | nil => simp [KeysLoop]
  | cons k rest ih => simp [KeysLoop, Slice.append, Slice.toList, ih]

theorem mem_entryKeys (m : OrderedMap) (s : String) :
    s ∈ m.entryKeys ↔ ∃ p ∈ m.entries, p[0]? = some s := by
  simp [entryKeys]

theorem Keys_spec (order : GoMap → List String) (horder : IsRangeOrder order)
    (m : OrderedMap) (hm : m.WellFormed) :
    ∃ ks, m.Keys order = some ks
      ∧ ks.toList.Nodup
      ∧ (∀ s, s ∈ ks.toList ↔ ∃ p ∈ m.entries, p[0]? = some s)
      ∧ ks.len = m.entryKeys.dedup.length := by
  obtain ⟨mp, h1, h2, h3, _, _⟩ := Map_spec m hm
  have hperm := horder mp
  refine ⟨Slice.mk (order mp), ?_, ?_, ?_, ?_⟩
  · simp [Keys, h1, KeysLoop_eq]
  · exact hperm.nodup_iff.2 h2
  · intro s
    rw [← h3 s]
    exact hperm.mem_iff
  · have hnd : (order mp).Nodup := hperm.nodup_iff.2 h2
    have hp : (order mp).Perm m.entryKeys.dedup := by
      rw [List.perm_ext_iff_of_nodup hnd (List.nodup_dedup _)]
      intro s
      rw [List.mem_dedup, mem_entryKeys, ← h3 s]
      exact hperm.mem_iff
    exact hp.length_eq

end OrderedMap

/-- C14: on a map whose entries are pairs, and whatever order the iteration over the
grouped view takes, `Keys()` returns a list without duplicates in which a string occurs
if and only if some entry has that string as its key, so its length is the number of
distinct keys among the entries: 0 for the empty map and 2 for
`[[foo,bar],[meh,bar],[foo,bar]]`. -/
theorem C14_Keys_distinct (order : GoMap → List String) (horder : IsRangeOrder order)
    (m : OrderedMap) (hm : m.WellFormed) :
    (∃ ks, m.Keys order = some ks
      ∧ ks.toList.Nodup
      ∧ (∀ s, s ∈ ks.toList ↔ ∃ p ∈ m.entries, p[0]? = some s)
      ∧ ks.len = m.entryKeys.dedup.length)
    ∧ ((OrderedMap.mk (Slice.mk [])).Keys order).map Slice.len = some 0
    ∧ (keysExample.Keys order).map Slice.len = some 2 := by
  refine ⟨OrderedMap.Keys_spec order horder m hm, ?_, ?_⟩
  · obtain ⟨ks, h1, _, _, h4⟩ :=
      OrderedMap.Keys_spec order horder (OrderedMap.mk (Slice.mk [])) (by decide)
    rw [h1, Option.map_some', h4]
    rfl
  · obtain ⟨ks, h1, _, _, h4⟩ := OrderedMap.Keys_spec order horder keysExample (by decide)
    rw [h1, Option.map_some', h4]
    decide

/-- Witness for C14: the map of `TestKeysDuplicateNext`, iterated in the reverse of the
order of first assignment. -/
theorem C14_Keys_distinct_witness :
    IsRangeOrder (fun mp => (GoMap.keys mp).reverse) ∧ keysExample.WellFormed ∧
    ((∃ ks, keysExample.Keys (fun mp => (GoMap.keys mp).reverse) = some ks
      ∧ ks.toList.Nodup
      ∧ (∀ s, s ∈ ks.toList ↔ ∃ p ∈ keysExample.entries, p[0]? = some s)
      ∧ ks.len = keysExample.entryKeys.dedup.length)
    ∧ ((OrderedMap.mk (Slice.mk [])).Keys (fun mp => (GoMap.keys mp).reverse)).map Slice.len
        = some 0
    ∧ (keysExample.Keys (fun mp => (GoMap.keys mp).reverse)).map Slice.len = some 2) :=
  ⟨fun mp => List.reverse_perm _, by decide,
    C14_Keys_distinct (fun mp => (GoMap.keys mp).reverse) (fun mp => List.reverse_perm _)
      keysExample (by decide)⟩

/-! ## Frame properties and idempotence -/

namespace OrderedMap

theorem valuesOf_filter (j : String) (f : List String → Bool) (l : List (List String))
    (h : ∀ p ∈ l, p[0]? = some j → f p = true) :
    valuesOf j (l.filter f) = valuesOf j l := by
  have hf : (l.filter f).filter (fun p => decide (p[0]? = some j))
      = l.filter (fun p => decide (p[0]? = some j)) := by
    rw [List.filter_filter]
    apply List.filter_congr
    intro p hp
    by_cases hj : p[0]? = some j
    · simp [hj, h p hp hj]
    · simp [hj]
  simp only [valuesOf, hf]

theorem GetAll_congr (m m1 : OrderedMap) (j : String) (hm : m.WellFormed)
    (hm1 : m1.WellFormed) (h : valuesOf j m1.entries = valuesOf j m.entries) :
    m1.GetAll j = m.GetAll j := by
  by_cases hj : j = ""
  · subst hj; rfl
  · rw [GetAll_eq m1 j hm1 hj, GetAll_eq m j hm hj, h]

theorem Get_congr (m m1 : OrderedMap) (j : String) (h : m1.GetAll j = m.GetAll j) :
    m1.Get j = m.Get j := by
  simp only [Get, h]

theorem GetAll_isSome (m : OrderedMap) (j : String) (hm : m.WellFormed) :
    ∃ vs, m.GetAll j = some vs := by
  by_cases hj : j = ""
  · subst hj; exact ⟨Slice.nil, rfl⟩
  · exact ⟨_, GetAll_eq m j hm hj⟩

theorem Get_isSome (m : OrderedMap) (j : String) (hm : m.WellFormed) :
    ∃ x, m.Get j = some x := by
  by_cases hj : j = ""
  · subst hj; exact ⟨"", rfl⟩
  · exact ⟨_, Get_eq m j hm hj⟩

theorem del_del (m : OrderedMap) (k : String) (hm : m.WellFormed) :
    ∃ m1, m.Del k = some m1 ∧ m1.WellFormed ∧ m1.Del k = some m1 := by
  refine ⟨_, del_eq m k hm, WellFormed_filter m _ hm, ?_⟩
  have h := del_eq _ k (WellFormed_filter m (fun p => decide (p[0]? ≠ some k)) hm)
  have he : ∀ l : List (List String), (OrderedMap.mk (Slice.mk l)).entries = l := fun _ => rfl
  rw [he, List.filter_filter] at h
  simp only [Bool.and_self] at h
  exact h

theorem remove_remove (m : OrderedMap) (k v : String) (hm : m.WellFormed) :
    ∃ m1, m.Remove k v = some m1 ∧ m1.WellFormed ∧ m1.Remove k v = some m1 := by
  refine ⟨_, remove_eq m k v hm, WellFormed_filter m _ hm, ?_⟩
  have h := remove_eq _ k v
    (WellFormed_filter m (fun p => decide (¬ (p[0]? = some k ∧ p[1]? = some v))) hm)
  have he : ∀ l : List (List String), (OrderedMap.mk (Slice.mk l)).entries = l := fun _ => rfl
  rw [he, List.filter_filter] at h
  simp only [Bool.and_self] at h
  exact h

theorem set_eq (m : OrderedMap) (k v : String) (hm : m.WellFormed) :
    m.Set k v = some (OrderedMap.mk (Slice.mk
      (m.entries.filter (fun p => decide (p[0]? ≠ some k)) ++ [[k, v]]))) := by
  simp [Set, set, del_eq m k hm, add, Slice.append, Slice.toList]

theorem WellFormed_set (m : OrderedMap) (k v : String) (hm : m.WellFormed) :
    (OrderedMap.mk (Slice.mk
      (m.entries.filter (fun p => decide (p[0]? ≠ some k)) ++ [[k, v]]))).WellFormed := by
  intro p hp
  have hp2 : p ∈ m.entries.filter (fun p => decide (p[0]? ≠ some k)) ++ [[k, v]] := hp
  rcases List.mem_append.1 hp2 with h1 | h1
  · exact hm p (List.mem_of_mem_filter h1)
  · simp only [List.mem_singleton] at h1
    subst h1; rfl

theorem set_set (m : OrderedMap) (k v : String) (hm : m.WellFormed) :
    ∃ m1, m.Set k v = some m1 ∧ m1.WellFormed ∧ m1.Set k v = some m1 := by
  refine ⟨_, set_eq m k v hm, WellFormed_set m k v hm, ?_⟩
  rw [set_eq _ k v (WellFormed_set m k v hm)]
  simp [entries, Slice.toList, List.filter_append, List.filter_filter]

end OrderedMap

/-- C15: on a map whose entries are pairs, for all `k`, `v` and every key `j` different
from `k`: each of `Del(k)`, `Remove(k, v)`, `Set(k, v)` and `Add(k, v)` returns and
leaves `GetAll(j)` and `Get(j)` exactly as they were before the call. -/
theorem C15_other_keys_untouched (m : OrderedMap) (k v j : String) (hm : m.WellFormed)
    (hj : j ≠ k) :
    ∃ vs x, m.GetAll j = some vs ∧ m.Get j = some x
      ∧ (∃ m1, m.Del k = some m1 ∧ m1.GetAll j = some vs ∧ m1.Get j = some x)
      ∧ (∃ m2, m.Remove k v = some m2 ∧ m2.GetAll j = some vs ∧ m2.Get j = some x)
      ∧ (∃ m3, m.Set k v = some m3 ∧ m3.GetAll j = some vs ∧ m3.Get j = some x)
      ∧ ((m.Add k v).GetAll j = some vs ∧ (m.Add k v).Get j = some x) := by
  obtain ⟨vs, hvs⟩ := OrderedMap.GetAll_isSome m j hm
  obtain ⟨x, hx⟩ := OrderedMap.Get_isSome m j hm
  have hkj : ¬ ([k, v] : List String)[0]? = some j := by
    simp only [List.getElem?_cons_zero, Option.some.injEq]
    exact fun e => hj e.symm
  have hone : valuesOf j [[k, v]] = [] :=
    OrderedMap.valuesOf_eq_nil j _ (fun p hp => by
      simp only [List.mem_singleton] at hp
      subst hp; exact hkj)
  have hdelv : valuesOf j (m.entries.filter (fun p => decide (p[0]? ≠ some k)))
      = valuesOf j m.entries :=
    OrderedMap.valuesOf_filter j _ _ (fun p _ hpj => by
      apply decide_eq_true
      rw [hpj]
      exact fun e => hj (Option.some.inj e))
  have hremv : valuesOf j
      (m.entries.filter (fun p => decide (¬ (p[0]? = some k ∧ p[1]? = some v))))
      = valuesOf j m.entries :=
    OrderedMap.valuesOf_filter j _ _ (fun p _ hpj => by
      apply decide_eq_true
      rw [hpj]
      exact fun e => hj (Option.some.inj e.1))
  have hdel : (OrderedMap.mk (Slice.mk
      (m.entries.filter (fun p => decide (p[0]? ≠ some k))))).GetAll j = m.GetAll j :=
    OrderedMap.GetAll_congr m _ j hm (OrderedMap.WellFormed_filter m _ hm) hdelv
  have hrem : (OrderedMap.mk (Slice.mk (m.entries.filter
      (fun p => decide (¬ (p[0]? = some k ∧ p[1]? = some v)))))).GetAll j = m.GetAll j :=
    OrderedMap.GetAll_congr m _ j hm (OrderedMap.WellFormed_filter m _ hm) hremv
  have hset : (OrderedMap.mk (Slice.mk
      (m.entries.filter (fun p => decide (p[0]? ≠ some k)) ++ [[k, v]]))).GetAll j
      = m.GetAll j :=
    OrderedMap.GetAll_congr m _ j hm (OrderedMap.WellFormed_set m k v hm) (by
      show valuesOf j (m.entries.filter (fun p => decide (p[0]? ≠ some k)) ++ [[k, v]]) = _
      rw [OrderedMap.valuesOf_append, hone, hdelv, List.append_nil])
  have hadd : (m.Add k v).GetAll j = m.GetAll j :=
    OrderedMap.GetAll_congr m _ j hm (OrderedMap.WellFormed_Add m k v hm) (by
      show valuesOf j (m.entries ++ [[k, v]]) = _
      rw [OrderedMap.valuesOf_append, hone, List.append_nil])
  refine ⟨vs, x, hvs, hx, ⟨_, OrderedMap.del_eq m k hm, ?_, ?_⟩,
    ⟨_, OrderedMap.remove_eq m k v hm, ?_, ?_⟩, ⟨_, OrderedMap.set_eq m k v hm, ?_, ?_⟩, ?_, ?_⟩
  · rw [hdel, hvs]
  · rw [OrderedMap.Get_congr m _ j hdel, hx]
  · rw [hrem, hvs]
  · rw [OrderedMap.Get_congr m _ j hrem, hx]
  · rw [hset, hvs]
  · rw [OrderedMap.Get_congr m _ j hset, hx]
  · rw [hadd, hvs]
  · rw [OrderedMap.Get_congr m _ j hadd, hx]

/-- Witness for C15: the map of `TestDelDoubleExists`, `k = "key"` and `j = "something"`. -/
theorem C15_other_keys_untouched_witness :
    OrderedMap.delExample.WellFormed ∧ "something" ≠ "key" ∧
    ∃ vs x, OrderedMap.delExample.GetAll "something" = some vs
      ∧ OrderedMap.delExample.Get "something" = some x
      ∧ (∃ m1, OrderedMap.delExample.Del "key" = some m1
          ∧ m1.GetAll "something" = some vs ∧ m1.Get "something" = some x)
      ∧ (∃ m2, OrderedMap.delExample.Remove "key" "2" = some m2
          ∧ m2.GetAll "something" = some vs ∧ m2.Get "something" = some x)
      ∧ (∃ m3, OrderedMap.delExample.Set "key" "2" = some m3
          ∧ m3.GetAll "something" = some vs ∧ m3.Get "something" = some x)
      ∧ ((OrderedMap.delExample.Add "key" "2").GetAll "something" = some vs
          ∧ (OrderedMap.delExample.Add "key" "2").Get "something" = some x) :=
  ⟨by decide, by decide,
    C15_other_keys_untouched OrderedMap.delExample "key" "2" "something" (by decide)
      (by decide)⟩

/-- C16: on a map whose entries are pairs, `Del(k)` returns, and calling `Del(k)` again
returns and leaves the same entry sequence (indeed the same state) as the first call. -/
theorem C16_Del_twice_is_Del_once (m : OrderedMap) (k : String) (hm : m.WellFormed) :
    ∃ m1, m.Del k = some m1 ∧ ∃ m2, m1.Del k = some m2 ∧ m2.entries = m1.entries
      ∧ m2 = m1 := by
  obtain ⟨m1, h1, _, h2⟩ := OrderedMap.del_del m k hm
  exact ⟨m1, h1, m1, h2, rfl, rfl⟩

/-- Witness for C16: the map of `TestDelDoubleExists`. -/
theorem C16_Del_twice_is_Del_once_witness :
    OrderedMap.delExample.WellFormed ∧
    ∃ m1, OrderedMap.delExample.Del "key" = some m1 ∧ ∃ m2, m1.Del "key" = some m2
      ∧ m2.entries = m1.entries ∧ m2 = m1 :=
  ⟨by decide, C16_Del_twice_is_Del_once OrderedMap.delExample "key" (by decide)⟩

/-- C17 (as stated, refuted for `Add`): on the zero value, `Add("a", "b")` applied twice
leaves two entries, applied once leaves one. -/
theorem C17_Add_not_idempotent_counterexample :
    ((OrderedMap.zero.Add "a" "b").Add "a" "b").entries = [["a", "b"], ["a", "b"]]
    ∧ (OrderedMap.zero.Add "a" "b").entries = [["a", "b"]]
    ∧ ((OrderedMap.zero.Add "a" "b").Add "a" "b").entries
        ≠ (OrderedMap.zero.Add "a" "b").entries := by
  decide

/-- C17 (amended): on a map whose entries are pairs, `Remove(k, v)`, `Del(k)` and
`Set(k, v)` are idempotent: applied twice in succession with the same arguments they
return and leave the entry sequence of a single application.  `Add(k, v)` is not: a
second application appends a second entry `(k, v)`. -/
theorem C17_idempotent_except_Add (m : OrderedMap) (k v : String) (hm : m.WellFormed) :
    (∃ m1, m.Remove k v = some m1 ∧ ∃ m2, m1.Remove k v = some m2 ∧ m2.entries = m1.entries)
    ∧ (∃ m1, m.Del k = some m1 ∧ ∃ m2, m1.Del k = some m2 ∧ m2.entries = m1.entries)
    ∧ (∃ m1, m.Set k v = some m1 ∧ ∃ m2, m1.Set k v = some m2 ∧ m2.entries = m1.entries)
    ∧ ((m.Add k v).Add k v).entries = (m.Add k v).entries ++ [[k, v]] := by
  obtain ⟨r1, hr1, _, hr2⟩ := OrderedMap.remove_remove m k v hm
  obtain ⟨d1, hd1, _, hd2⟩ := OrderedMap.del_del m k hm
  obtain ⟨s1, hs1, _, hs2⟩ := OrderedMap.set_set m k v hm
  exact ⟨⟨r1, hr1, r1, hr2, rfl⟩, ⟨d1, hd1, d1, hd2, rfl⟩, ⟨s1, hs1, s1, hs2, rfl⟩, rfl⟩

/-- Witness for C17: the map of `TestSetMultipleKeys`. -/
theorem C17_idempotent_except_Add_witness :
    OrderedMap.setExample.WellFormed ∧
    ((∃ m1, OrderedMap.setExample.Remove "key" "val1" = some m1
        ∧ ∃ m2, m1.Remove "key" "val1" = some m2 ∧ m2.entries = m1.entries)
    ∧ (∃ m1, OrderedMap.setExample.Del "key" = some m1
        ∧ ∃ m2, m1.Del "key" = some m2 ∧ m2.entries = m1.entries)
    ∧ (∃ m1, OrderedMap.setExample.Set "key" "val1" = some m1
        ∧ ∃ m2, m1.Set "key" "val1" = some m2 ∧ m2.entries = m1.entries)
    ∧ ((OrderedMap.setExample.Add "key" "val1").Add "key" "val1").entries
        = (OrderedMap.setExample.Add "key" "val1").entries ++ [["key", "val1"]]) :=
  ⟨by decide, C17_idempotent_except_Add OrderedMap.setExample "key" "val1" (by decide)⟩

/-! ## The equality rule -/

/-- C18: for all strings `a` and `b`, `stringEquals(a, b)` (equal length and `a`
contains `b`) is true if and only if `a` and `b` are equal; it agrees with the rule as
the specification words it and with the `==` comparison that `GetAll` uses.  Both
conjuncts of the rule matter: `"ab"`, `"ba"` have equal length, and `"abc"` contains
`"b"`. -/
theorem C18_stringEquals_is_equality (a b : String) :
    (stringEquals a b = true ↔ a = b)
    ∧ stringEquals a b = specStringEquals a b
    ∧ stringEquals a b = decide (a = b)
    ∧ (len "ab" = len "ba" ∧ stringEquals "ab" "ba" = false)
    ∧ (Contains "abc" "b" = true ∧ stringEquals "abc" "b" = false) := by
  refine ⟨stringEquals_iff a b, ?_, stringEquals_eq_decide a b, by decide, by decide⟩
  rw [stringEquals_eq_decide, Bool.eq_iff_iff]
  simp only [decide_eq_true_eq, specStringEquals, Bool.and_eq_true, Bool.or_eq_true,
    beq_iff_eq]
  constructor
  · rintro rfl
    have h := (stringEquals_iff a a).2 rfl
    simp only [stringEquals, Bool.and_eq_true, beq_iff_eq] at h
    exact ⟨rfl, Or.inl h.2⟩
  · rintro ⟨hl, h | h⟩
    · exact (stringEquals_iff a b).1 (by simp [stringEquals, hl, h])
    · exact ((stringEquals_iff b a).1 (by simp [stringEquals, hl, h])).symm

/-! ## Reachable maps -/

theorem NewOrderedMap_ok_WellFormed (P : Slice (List String)) (m0 : OrderedMap)
    (h : NewOrderedMap P = Except.ok m0) : m0.WellFormed := by
  cases P with
  | nil => simp [NewOrderedMap, Slice.isNil] at h
  | mk l =>
    by_cases hv : hasValidKeyPairsLoop l = true
    · simp only [NewOrderedMap, Slice.isNil, hasValidKeyPairs, Slice.toList, hv,
        Bool.false_eq_true, if_false, Bool.not_true, Except.ok.injEq] at h
      subst h
      exact (hasValidKeyPairsLoop_iff l).1 hv
    · simp only [Bool.not_eq_true] at hv
      simp [NewOrderedMap, Slice.isNil, hasValidKeyPairs, Slice.toList, hv] at h

theorem apply_WellFormed (m : OrderedMap) (hm : m.WellFormed) (op : Op) :
    ∃ m1, op.apply m = some m1 ∧ m1.WellFormed := by
  cases op with
  | add key value => exact ⟨_, rfl, OrderedMap.WellFormed_Add m key value hm⟩
  | remove key val =>
    exact ⟨_, OrderedMap.remove_eq m key val hm, OrderedMap.WellFormed_filter m _ hm⟩
  | del key => exact ⟨_, OrderedMap.del_eq m key hm, OrderedMap.WellFormed_filter m _ hm⟩
  | set key val => exact ⟨_, OrderedMap.set_eq m key val hm, OrderedMap.WellFormed_set m key val hm⟩

theorem run_WellFormed (ops : List Op) (m : OrderedMap) (hm : m.WellFormed) :
    ∃ m1, run m ops = some m1 ∧ m1.WellFormed := by
  induction ops generalizing m with
  | nil => exact ⟨m, rfl, hm⟩
  | cons op rest ih =>
    obtain ⟨m1, h1, hw1⟩ := apply_WellFormed m hm op
    obtain ⟨m2, h2, hw2⟩ := ih m1 hw1
    exact ⟨m2, by simp [run, h1, h2], hw2⟩

/-- C19: every map obtained from the zero value or from a successful `NewOrderedMap`
call by a finite sequence of `Add`, `Remove`, `Del` and `Set` calls exists (no call in
the sequence panics) and has only entries with exactly two elements; on such a map
`Remove`, `Del`, `Set`, `GetAll`, `Get`, `Map`, `Keys` and `String` all return, so no
index expression goes out of range. -/
theorem C19_reachable_maps_are_wellformed (m0 : OrderedMap)
    (h0 : m0 = OrderedMap.zero ∨ ∃ P, NewOrderedMap P = Except.ok m0) (ops : List Op) :
    ∃ m, run m0 ops = some m
      ∧ (∀ p ∈ m.entries, p.length = 2)
      ∧ (∀ k v, (m.Remove k v).isSome = true ∧ (m.Del k).isSome = true
          ∧ (m.Set k v).isSome = true ∧ (m.GetAll k).isSome = true
          ∧ (m.Get k).isSome = true)
      ∧ m.Map.isSome = true ∧ m.String_.isSome = true
      ∧ (∀ order, (m.Keys order).isSome = true) := by
  have hw0 : m0.WellFormed := by
    rcases h0 with rfl | ⟨P, hP⟩
    · intro p hp; exact absurd hp (List.not_mem_nil p)
    · exact NewOrderedMap_ok_WellFormed P m0 hP
  obtain ⟨m, hrun, hw⟩ := run_WellFormed ops m0 hw0
  obtain ⟨mp, hmap, _⟩ := OrderedMap.Map_spec m hw
  refine ⟨m, hrun, hw, ?_, by rw [hmap]; rfl, by rw [OrderedMap.String_eq m hw]; rfl, ?_⟩
  · intro k v
    obtain ⟨vs, hvs⟩ := OrderedMap.GetAll_isSome m k hw
    obtain ⟨x, hx⟩ := OrderedMap.Get_isSome m k hw
    refine ⟨?_, ?_, ?_, by rw [hvs]; rfl, by rw [hx]; rfl⟩
    · show (m.remove k v).isSome = true
      rw [OrderedMap.remove_eq m k v hw]; rfl
    · show (m.del k).isSome = true
      rw [OrderedMap.del_eq m k hw]; rfl
    · rw [OrderedMap.set_eq m k v hw]; rfl
  · intro order
    simp [OrderedMap.Keys, hmap]

/-- Witness for C19: the zero value followed by five mutator calls. -/
theorem C19_reachable_maps_are_wellformed_witness :
    (OrderedMap.zero = OrderedMap.zero ∨ ∃ P, NewOrderedMap P = Except.ok OrderedMap.zero) ∧
    ∃ m, run OrderedMap.zero [Op.add "a" "1", Op.add "b" "2", Op.set "a" "3",
        Op.remove "b" "2", Op.del "c"] = some m
      ∧ (∀ p ∈ m.entries, p.length = 2)
      ∧ (∀ k v, (m.Remove k v).isSome = true ∧ (m.Del k).isSome = true
          ∧ (m.Set k v).isSome = true ∧ (m.GetAll k).isSome = true
          ∧ (m.Get k).isSome = true)
      ∧ m.Map.isSome = true ∧ m.String_.isSome = true
      ∧ (∀ order, (m.Keys order).isSome = true) :=
  ⟨Or.inl rfl, C19_reachable_maps_are_wellformed OrderedMap.zero (Or.inl rfl) _⟩

/-! ## The grouped view and the lookups -/

/-- C20: on a map whose entries are pairs, `Map()` returns a grouped view such that for
every non-empty key `k`, `GetAll(k)` has the same elements in the same order as
`Map()[k]` (no elements when `k` is not bound in `Map()`), and `Len()` is the sum of the
lengths of all value lists of `Map()`. -/
theorem C20_grouped_view_agrees (m : OrderedMap) (hm : m.WellFormed) :
    ∃ mp, m.Map = some mp
      ∧ (∀ k, k ≠ "" → ∃ vs, m.GetAll k = some vs
          ∧ vs.toList = (GoMap.index mp k).toList
          ∧ (GoMap.has mp k = false → vs.toList = []))
      ∧ m.Len = GoMap.totalLen mp := by
  obtain ⟨mp, h1, _, h3, h4, h5⟩ := OrderedMap.Map_spec m hm
  refine ⟨mp, h1, ?_, h5.symm⟩
  intro k hk
  refine ⟨_, OrderedMap.GetAll_eq m k hm hk, (h4 k).symm, ?_⟩
  intro hno
  have hnm : k ∉ GoMap.keys mp := by simpa [GoMap.has] using hno
  show valuesOf k m.entries = []
  rw [← h4 k, GoMap.index_of_not_mem mp k hnm]
  rfl

/-- Witness for C20: the map of `TestMapDuplicate`. -/
theorem C20_grouped_view_agrees_witness :
    mapExample.WellFormed ∧
    ∃ mp, mapExample.Map = some mp
      ∧ (∀ k, k ≠ "" → ∃ vs, mapExample.GetAll k = some vs
          ∧ vs.toList = (GoMap.index mp k).toList
          ∧ (GoMap.has mp k = false → vs.toList = []))
      ∧ mapExample.Len = GoMap.totalLen mp :=
  ⟨by decide, C20_grouped_view_agrees mapExample (by decide)⟩

end orderedmap
